import Mathlib

/-!
Verification of the Gray-Scott distributed reaction-diffusion engine
(ADIOS2-Examples).  The per-rank decomposition data and the inline index
functions `is_inside`, `g2i`, `l2i` are embedded from
`source/gpu/gray-scott-kokkos/gray-scott.h`; the bodies of the stepper,
restart bridge and decomposition routines are declared there but their
translation units are not part of the sources, so those operations are
modelled from the specification (each such definition says so in its doc
comment).
-/

namespace GrayScottSpec

/-- Per-rank decomposition state of class `GrayScott`
(gray-scott.h lines 16-22): local extents and global offsets are
`size_t` fields, modelled as `Nat`. -/
structure GrayScott where
  size_x : Nat
  size_y : Nat
  size_z : Nat
  offset_x : Nat
  offset_y : Nat
  offset_z : Nat
deriving DecidableEq, Repr

/-- `GrayScott::l2i` (gray-scott.h lines 117-120):
`x + y * (size_x + 2) + z * (size_x + 2) * (size_y + 2)`.
Coordinates are C `int`, modelled as `Int`; in C++ the arithmetic is
carried out in `size_t` and converted back to `int`, which agrees with
exact `Int` arithmetic on every coordinate inside the padded box. -/
def GrayScott.l2i (g : GrayScott) (x y z : Int) : Int :=
  x + y * ((g.size_x : Int) + 2) + z * ((g.size_x : Int) + 2) * ((g.size_y : Int) + 2)

/-- `GrayScott::g2i` (gray-scott.h lines 108-115): subtract the global
offset and shift by +1 per axis for the ghost layer, then `l2i`. -/
def GrayScott.g2i (g : GrayScott) (gx gy gz : Int) : Int :=
  g.l2i (gx - (g.offset_x : Int) + 1) (gy - (g.offset_y : Int) + 1)
    (gz - (g.offset_z : Int) + 1)

/-- `GrayScott::is_inside` (gray-scott.h lines 90-106), the early-return
chain of six comparisons.  In C++ each comparison promotes the `int`
coordinate to `size_t`; for a negative coordinate that promotion makes
the first test of its axis false and the second true, so the C++ function
returns `false` there exactly as this `Int` version does, and on
non-negative coordinates the two agree literally. -/
def GrayScott.is_inside (g : GrayScott) (x y z : Int) : Bool :=
  if x < (g.offset_x : Int) then false
  else if x ≥ (g.offset_x : Int) + (g.size_x : Int) then false
  else if y < (g.offset_y : Int) then false
  else if y ≥ (g.offset_y : Int) + (g.size_y : Int) then false
  else if z < (g.offset_z : Int) then false
  else if z ≥ (g.offset_z : Int) + (g.size_z : Int) then false
  else true

/-- Number of cells of the ghost-padded local buffer,
`(size_x+2) * (size_y+2) * (size_z+2)`. -/
def paddedTotal (g : GrayScott) : Int :=
  ((g.size_x : Int) + 2) * ((g.size_y : Int) + 2) * ((g.size_z : Int) + 2)

/-- Membership of a local coordinate in the ghost-padded box
`[0,size_x+2) x [0,size_y+2) x [0,size_z+2)`. -/
def inBox (g : GrayScott) (x y z : Int) : Prop :=
  0 ≤ x ∧ x < (g.size_x : Int) + 2 ∧ 0 ≤ y ∧ y < (g.size_y : Int) + 2 ∧
    0 ≤ z ∧ z < (g.size_z : Int) + 2

instance (g : GrayScott) (x y z : Int) : Decidable (inBox g x y z) := by
  unfold inBox; infer_instance

lemma is_inside_iff (g : GrayScott) (x y z : Int) :
    g.is_inside x y z = true ↔
      (g.offset_x : Int) ≤ x ∧ x < (g.offset_x : Int) + (g.size_x : Int) ∧
      (g.offset_y : Int) ≤ y ∧ y < (g.offset_y : Int) + (g.size_y : Int) ∧
      (g.offset_z : Int) ≤ z ∧ z < (g.offset_z : Int) + (g.size_z : Int) := by
  unfold GrayScott.is_inside
  split_ifs with h1 h2 h3 h4 h5 h6 <;> simp <;> omega

/-- C1: for every rank and every local coordinate, the local-to-flat
index computed by `l2i` equals
`x + y*(size_x+2) + z*(size_x+2)*(size_y+2)`; in particular this holds
throughout the ghost-padded box of extents `(size_x+2)`, `(size_y+2)`,
`(size_z+2)`. -/
theorem l2i_formula (g : GrayScott) (x y z : Int) :
    g.l2i x y z =
      x + y * ((g.size_x : Int) + 2) + z * ((g.size_x : Int) + 2) * ((g.size_y : Int) + 2) :=
  rfl

/-- C2: for every rank and every global coordinate, `g2i (gx,gy,gz)`
equals `l2i (gx-offset_x+1, gy-offset_y+1, gz-offset_z+1)` — the
global-to-local translation adds exactly +1 per axis for the ghost layer
(in particular at every coordinate inside the rank's interior region). -/
theorem g2i_eq_l2i_shift (g : GrayScott) (gx gy gz : Int) :
    g.g2i gx gy gz =
      g.l2i (gx - (g.offset_x : Int) + 1) (gy - (g.offset_y : Int) + 1)
        (gz - (g.offset_z : Int) + 1) :=
  rfl

/-- C10: `l2i` is a bijection from the ghost-padded coordinate box onto
the flat index range `[0, (size_x+2)*(size_y+2)*(size_z+2))`: distinct
local coordinates map to distinct flat indices, and every index in range
is hit, so no two cells of a field share storage. -/
theorem l2i_bijective (g : GrayScott) :
    (∀ x y z x' y' z' : Int, inBox g x y z → inBox g x' y' z' →
        g.l2i x y z = g.l2i x' y' z' → x = x' ∧ y = y' ∧ z = z') ∧
    (∀ x y z : Int, inBox g x y z → 0 ≤ g.l2i x y z ∧ g.l2i x y z < paddedTotal g) ∧
    (∀ n : Int, 0 ≤ n → n < paddedTotal g →
        ∃ x y z : Int, inBox g x y z ∧ g.l2i x y z = n) := by
  have hB : (0 : Int) < (g.size_x : Int) + 2 := by positivity
  have hC : (0 : Int) < (g.size_y : Int) + 2 := by positivity
  have hD : (0 : Int) < (g.size_z : Int) + 2 := by positivity
  refine ⟨?_, ?_, ?_⟩
  · rintro x y z x' y' z' ⟨hx0, hxB, hy0, hyC, hz0, hzD⟩
      ⟨hx0', hxB', hy0', hyC', hz0', hzD'⟩ e
    have e2 : x + (y + z * ((g.size_y : Int) + 2)) * ((g.size_x : Int) + 2)
        = x' + (y' + z' * ((g.size_y : Int) + 2)) * ((g.size_x : Int) + 2) := by
      unfold GrayScott.l2i at e
      linear_combination e
    have hxx : x = x' := by
      have hm := congrArg (fun t => t % ((g.size_x : Int) + 2)) e2
      simpa [Int.add_mul_emod_self, Int.emod_eq_of_lt hx0 hxB,
        Int.emod_eq_of_lt hx0' hxB'] using hm
    have e3 : y + z * ((g.size_y : Int) + 2) = y' + z' * ((g.size_y : Int) + 2) := by
      have hcancel : (y + z * ((g.size_y : Int) + 2)) * ((g.size_x : Int) + 2)
          = (y' + z' * ((g.size_y : Int) + 2)) * ((g.size_x : Int) + 2) := by
        linear_combination e2 - hxx
      exact mul_right_cancel₀ (ne_of_gt hB) hcancel
    have hyy : y = y' := by
      have hm := congrArg (fun t => t % ((g.size_y : Int) + 2)) e3
      simpa [Int.add_mul_emod_self, Int.emod_eq_of_lt hy0 hyC,
        Int.emod_eq_of_lt hy0' hyC'] using hm
    have hzz : z = z' := by
      have hcancel : z * ((g.size_y : Int) + 2) = z' * ((g.size_y : Int) + 2) := by
        linear_combination e3 - hyy
      exact mul_right_cancel₀ (ne_of_gt hC) hcancel
    exact ⟨hxx, hyy, hzz⟩
  · rintro x y z ⟨hx0, hxB, hy0, hyC, hz0, hzD⟩
    have hyB : 0 ≤ y * ((g.size_x : Int) + 2) := mul_nonneg hy0 hB.le
    have hzBC : 0 ≤ z * ((g.size_x : Int) + 2) * ((g.size_y : Int) + 2) :=
      mul_nonneg (mul_nonneg hz0 hB.le) hC.le
    constructor
    · unfold GrayScott.l2i
      linarith
    · have h1 : y * ((g.size_x : Int) + 2) ≤ ((g.size_y : Int) + 1) * ((g.size_x : Int) + 2) :=
        mul_le_mul_of_nonneg_right (by omega) hB.le
      have h2 : z * (((g.size_x : Int) + 2) * ((g.size_y : Int) + 2))
          ≤ ((g.size_z : Int) + 1) * (((g.size_x : Int) + 2) * ((g.size_y : Int) + 2)) :=
        mul_le_mul_of_nonneg_right (by omega) (mul_nonneg hB.le hC.le)
      unfold GrayScott.l2i paddedTotal
      nlinarith [mul_pos hB hC]
  · intro n hn0 hnT
    refine ⟨n % ((g.size_x : Int) + 2),
      (n / ((g.size_x : Int) + 2)) % ((g.size_y : Int) + 2),
      n / ((g.size_x : Int) + 2) / ((g.size_y : Int) + 2),
      ⟨?_, ?_, ?_, ?_, ?_, ?_⟩, ?_⟩
    · exact Int.emod_nonneg n (ne_of_gt hB)
    · exact Int.emod_lt_of_pos n hB
    · exact Int.emod_nonneg _ (ne_of_gt hC)
    · exact Int.emod_lt_of_pos _ hC
    · exact Int.ediv_nonneg (Int.ediv_nonneg hn0 hB.le) hC.le
    · rw [Int.ediv_lt_iff_lt_mul hC, Int.ediv_lt_iff_lt_mul hB]
      unfold paddedTotal at hnT
      linarith
    · have h1 := Int.ediv_add_emod n ((g.size_x : Int) + 2)
      have h2 := Int.ediv_add_emod (n / ((g.size_x : Int) + 2)) ((g.size_y : Int) + 2)
      unfold GrayScott.l2i
      linear_combination h1 + ((g.size_x : Int) + 2) * h2

/-- Rank used by concrete witnesses: local extents (1,2,3), offsets (4,5,6). -/
def gw : GrayScott :=
  { size_x := 1, size_y := 2, size_z := 3,
    offset_x := 4, offset_y := 5, offset_z := 6 }

/-- Witness for C10: instantiates the injectivity part of `l2i_bijective`
at the concrete rank `gw` and coordinate (1,2,3) of its padded box. -/
theorem l2i_bijective_witness :
    inBox gw 1 2 3 ∧ ((1 : Int) = 1 ∧ (2 : Int) = 2 ∧ (3 : Int) = 3) := by
  have hb : inBox gw 1 2 3 := by unfold inBox gw; norm_num
  exact ⟨hb, (l2i_bijective gw).1 1 2 3 1 2 3 hb hb rfl⟩

/-- C9: for a rank with positive local extents, every global coordinate
accepted by `is_inside` is mapped by `g2i` to a flat index that is the
`l2i` image of an interior (non-ghost) local coordinate — each local
coordinate in `[1, size]` on its axis — and lies in
`[0, (size_x+2)*(size_y+2)*(size_z+2))`, so indexed access under the
`is_inside` guard stays in bounds and never lands on a ghost cell. -/
theorem g2i_safe (g : GrayScott)
    (_hpos : 0 < g.size_x ∧ 0 < g.size_y ∧ 0 < g.size_z)
    (x y z : Int) (h : g.is_inside x y z = true) :
    (1 ≤ x - (g.offset_x : Int) + 1 ∧ x - (g.offset_x : Int) + 1 ≤ (g.size_x : Int)) ∧
    (1 ≤ y - (g.offset_y : Int) + 1 ∧ y - (g.offset_y : Int) + 1 ≤ (g.size_y : Int)) ∧
    (1 ≤ z - (g.offset_z : Int) + 1 ∧ z - (g.offset_z : Int) + 1 ≤ (g.size_z : Int)) ∧
    g.g2i x y z =
      g.l2i (x - (g.offset_x : Int) + 1) (y - (g.offset_y : Int) + 1)
        (z - (g.offset_z : Int) + 1) ∧
    0 ≤ g.g2i x y z ∧ g.g2i x y z < paddedTotal g := by
  rw [is_inside_iff] at h
  obtain ⟨hx1, hx2, hy1, hy2, hz1, hz2⟩ := h
  have hxl : 1 ≤ x - (g.offset_x : Int) + 1 ∧ x - (g.offset_x : Int) + 1 ≤ (g.size_x : Int) := by
    omega
  have hyl : 1 ≤ y - (g.offset_y : Int) + 1 ∧ y - (g.offset_y : Int) + 1 ≤ (g.size_y : Int) := by
    omega
  have hzl : 1 ≤ z - (g.offset_z : Int) + 1 ∧ z - (g.offset_z : Int) + 1 ≤ (g.size_z : Int) := by
    omega
  have hbox : inBox g (x - (g.offset_x : Int) + 1) (y - (g.offset_y : Int) + 1)
      (z - (g.offset_z : Int) + 1) := by
    unfold inBox; omega
  have hrange := (l2i_bijective g).2.1 _ _ _ hbox
  exact ⟨hxl, hyl, hzl, rfl, hrange.1, hrange.2⟩

/-- Witness for C9: the rank `gw` accepts the global coordinate (4,6,8)
and maps it into the interior of its padded buffer. -/
theorem g2i_safe_witness :
    (0 < gw.size_x ∧ 0 < gw.size_y ∧ 0 < gw.size_z) ∧
    gw.is_inside 4 6 8 = true ∧
    ((1 ≤ (4 : Int) - (gw.offset_x : Int) + 1 ∧
        (4 : Int) - (gw.offset_x : Int) + 1 ≤ (gw.size_x : Int)) ∧
      (1 ≤ (6 : Int) - (gw.offset_y : Int) + 1 ∧
        (6 : Int) - (gw.offset_y : Int) + 1 ≤ (gw.size_y : Int)) ∧
      (1 ≤ (8 : Int) - (gw.offset_z : Int) + 1 ∧
        (8 : Int) - (gw.offset_z : Int) + 1 ≤ (gw.size_z : Int)) ∧
      gw.g2i 4 6 8 =
        gw.l2i ((4 : Int) - (gw.offset_x : Int) + 1) ((6 : Int) - (gw.offset_y : Int) + 1)
          ((8 : Int) - (gw.offset_z : Int) + 1) ∧
      0 ≤ gw.g2i 4 6 8 ∧ gw.g2i 4 6 8 < paddedTotal gw) := by
  refine ⟨by decide, by decide, g2i_safe gw (by decide) 4 6 8 (by decide)⟩

/-- Extent owned by the rank with coordinate `i` along one axis, for the
axis decomposition given by the list `ns` of per-rank extents (0 outside
the list). -/
def axisSize (ns : List Nat) (i : Nat) : Nat := ns.getD i 0

/-- Offset of the rank with coordinate `i` along one axis: the prefix
sum of the extents of the lower-coordinate ranks. -/
def axisOffset (ns : List Nat) (i : Nat) : Nat := (ns.take i).sum

lemma axisOffset_zero (ns : List Nat) : axisOffset ns 0 = 0 := rfl

lemma axisOffset_succ_cons (n : Nat) (rest : List Nat) (j : Nat) :
    axisOffset (n :: rest) (j + 1) = n + axisOffset rest j := by
  simp [axisOffset]

lemma axisSize_zero_cons (n : Nat) (rest : List Nat) :
    axisSize (n :: rest) 0 = n := rfl

lemma axisSize_succ_cons (n : Nat) (rest : List Nat) (j : Nat) :
    axisSize (n :: rest) (j + 1) = axisSize rest j := rfl

/-- One axis of the decomposition covers `[0, sum ns)` without overlap
or gap: each cell lies in exactly one rank's `[offset, offset+size)`. -/
lemma axis_cover (ns : List Nat) (x : Nat) (hx : x < ns.sum) :
    ∃! i : Nat,
      i < ns.length ∧ axisOffset ns i ≤ x ∧ x < axisOffset ns i + axisSize ns i := by
  induction ns generalizing x with
  | nil => simp at hx
  | cons n rest ih =>
    by_cases hxn : x < n
    · refine ⟨0, ⟨by simp, by simp [axisOffset_zero], ?_⟩, ?_⟩
      · rw [axisOffset_zero, axisSize_zero_cons]; omega
      · rintro j ⟨hj, hj1, hj2⟩
        by_contra hj0
        obtain ⟨j', rfl⟩ : ∃ j', j = j' + 1 := ⟨j - 1, by omega⟩
        rw [axisOffset_succ_cons] at hj1
        omega
    · have hx' : x - n < rest.sum := by
        simp only [List.sum_cons] at hx; omega
      obtain ⟨i', ⟨hi'len, hi'1, hi'2⟩, huniq⟩ := ih (x - n) hx'
      refine ⟨i' + 1, ⟨by simpa using hi'len, ?_, ?_⟩, ?_⟩
      · rw [axisOffset_succ_cons]; omega
      · rw [axisOffset_succ_cons, axisSize_succ_cons]; omega
      · rintro j ⟨hj, hj1, hj2⟩
        have hj0 : j ≠ 0 := by
          intro h0
          rw [h0, axisOffset_zero, axisSize_zero_cons] at hj2
          omega
        obtain ⟨j', rfl⟩ : ∃ j', j = j' + 1 := ⟨j - 1, by omega⟩
        rw [axisOffset_succ_cons] at hj1
        rw [axisOffset_succ_cons, axisSize_succ_cons] at hj2
        have := huniq j' ⟨by simpa using hj, by omega, by omega⟩
        omega

/-- The rank state induced by per-axis decompositions `nx`, `ny`, `nz`
at process coordinate `(i,j,k)`: extents from the lists, offsets the
prefix sums of the preceding extents. -/
def mkRank (nx ny nz : List Nat) (i j k : Nat) : GrayScott :=
  { size_x := axisSize nx i, size_y := axisSize ny j, size_z := axisSize nz k,
    offset_x := axisOffset nx i, offset_y := axisOffset ny j,
    offset_z := axisOffset nz k }

/-- The set of process coordinates of the decomposition. -/
def rankGrid (nx ny nz : List Nat) : Finset (Nat × Nat × Nat) :=
  Finset.range nx.length ×ˢ (Finset.range ny.length ×ˢ Finset.range nz.length)

/-- C3: for every valid decomposition — per-axis extent lists whose
offsets are the prefix sums of the preceding extents — and every global
cell of `[0, L)³` (with `L` the per-axis extent sum), exactly one rank's
`is_inside` accepts the cell: the interior regions partition the global
domain with no overlap and no gap. -/
theorem decomposition_partition (nx ny nz : List Nat) (x y z : Int)
    (hx : 0 ≤ x ∧ x < (nx.sum : Int)) (hy : 0 ≤ y ∧ y < (ny.sum : Int))
    (hz : 0 ≤ z ∧ z < (nz.sum : Int)) :
    ((rankGrid nx ny nz).filter
      (fun ijk => (mkRank nx ny nz ijk.1 ijk.2.1 ijk.2.2).is_inside x y z = true)).card
      = 1 := by
  obtain ⟨a, rfl⟩ := Int.eq_ofNat_of_zero_le hx.1
  obtain ⟨b, rfl⟩ := Int.eq_ofNat_of_zero_le hy.1
  obtain ⟨c, rfl⟩ := Int.eq_ofNat_of_zero_le hz.1
  have ha : a < nx.sum := by exact_mod_cast hx.2
  have hb : b < ny.sum := by exact_mod_cast hy.2
  have hc : c < nz.sum := by exact_mod_cast hz.2
  obtain ⟨i, ⟨hilen, hi1, hi2⟩, hiu⟩ := axis_cover nx a ha
  obtain ⟨j, ⟨hjlen, hj1, hj2⟩, hju⟩ := axis_cover ny b hb
  obtain ⟨k, ⟨hklen, hk1, hk2⟩, hku⟩ := axis_cover nz c hc
  rw [Finset.card_eq_one]
  refine ⟨(i, j, k), Finset.eq_singleton_iff_unique_mem.mpr ⟨?_, ?_⟩⟩
  · rw [Finset.mem_filter]
    constructor
    · unfold rankGrid
      rw [Finset.mem_product, Finset.mem_product]
      exact ⟨Finset.mem_range.mpr hilen,
        Finset.mem_range.mpr hjlen, Finset.mem_range.mpr hklen⟩
    · rw [is_inside_iff]
      unfold mkRank
      refine ⟨?_, ?_, ?_, ?_, ?_, ?_⟩ <;> simp <;> omega
  · rintro ⟨i', j', k'⟩ hmem
    rw [Finset.mem_filter] at hmem
    obtain ⟨hgrid, hins⟩ := hmem
    unfold rankGrid at hgrid
    rw [Finset.mem_product, Finset.mem_product] at hgrid
    obtain ⟨hgi, hgj, hgk⟩ := hgrid
    rw [is_inside_iff] at hins
    unfold mkRank at hins
    simp only at hins
    obtain ⟨h1, h2, h3, h4, h5, h6⟩ := hins
    have hi' : i' = i := hiu i' ⟨Finset.mem_range.mp hgi, by omega, by omega⟩
    have hj' : j' = j := hju j' ⟨Finset.mem_range.mp hgj, by omega, by omega⟩
    have hk' : k' = k := hku k' ⟨Finset.mem_range.mp hgk, by omega, by omega⟩
    simp [hi', hj', hk']

/-- Witness for C3: decomposition with axis extents [2,1] / [1] / [1]
and global cell (2,0,0) — exactly one of the two ranks contains it. -/
theorem decomposition_partition_witness :
    (((0 : Int) ≤ 2 ∧ (2 : Int) < (([2, 1] : List Nat).sum : Int)) ∧
      ((0 : Int) ≤ 0 ∧ (0 : Int) < (([1] : List Nat).sum : Int)) ∧
      ((0 : Int) ≤ 0 ∧ (0 : Int) < (([1] : List Nat).sum : Int))) ∧
    ((rankGrid [2, 1] [1] [1]).filter
      (fun ijk =>
        (mkRank [2, 1] [1] [1] ijk.1 ijk.2.1 ijk.2.2).is_inside 2 0 0 = true)).card
      = 1 := by
  refine ⟨⟨⟨by norm_num, by norm_num⟩, ⟨by norm_num, by norm_num⟩,
    ⟨by norm_num, by norm_num⟩⟩, ?_⟩
  exact decomposition_partition [2, 1] [1] [1] 2 0 0 ⟨by norm_num, by norm_num⟩
    ⟨by norm_num, by norm_num⟩ ⟨by norm_num, by norm_num⟩

/-- Modelled from the spec: the body of the decomposition routine
(`local_extents` in the constructor of `GrayScott`, driven by
`Settings`) is not among the sources.  Per the spec it divides the
global edge length `L` as evenly as possible across an axis's process
count `np`, giving the remainder cells to the lowest-indexed process
coordinates: coordinate `c` owns `L/np` cells plus one when
`c < L % np`. -/
def localSize (L np c : Nat) : Nat :=
  L / np + if c < L % np then 1 else 0

/-- Modelled from the spec: the offset of process coordinate `c` along
one axis, accumulated as the prefix sum of the preceding ranks' sizes
(closed form of that prefix sum). -/
def localOffset (L np c : Nat) : Nat :=
  c * (L / np) + min c (L % np)

/-- C7: `local_extents` balances each axis — any two extents along an
axis differ by at most one, the remainder goes to the lowest-indexed
coordinates (extents are non-increasing in the coordinate), each offset
is the sum of the extents of all lower coordinates, the extents sum to
`L` over the axis's process count, and `L = 10` over 3 processes gives
sizes 4, 3, 3. -/
theorem local_extents_spec (L np c c1 c2 : Nat) (hnp : 0 < np) (hc : c1 ≤ c2) :
    localSize L np c1 ≤ localSize L np c2 + 1 ∧
    localSize L np c2 ≤ localSize L np c1 ∧
    localOffset L np c = ∑ j in Finset.range c, localSize L np j ∧
    (∑ j in Finset.range np, localSize L np j) = L ∧
    localSize 10 3 0 = 4 ∧ localSize 10 3 1 = 3 ∧ localSize 10 3 2 = 3 := by
  have hoff : ∀ m : Nat, localOffset L np m = ∑ j in Finset.range m, localSize L np j := by
    intro m
    induction m with
    | zero => simp [localOffset]
    | succ m ihm =>
      rw [Finset.sum_range_succ, ← ihm]
      unfold localOffset localSize
      rw [Nat.succ_mul]
      split_ifs with hm <;> omega
  refine ⟨?_, ?_, hoff c, ?_, by decide, by decide, by decide⟩
  · unfold localSize; split_ifs <;> omega
  · unfold localSize; split_ifs <;> omega
  · rw [← hoff np]
    unfold localOffset
    have hm : L % np < np := Nat.mod_lt _ hnp
    rw [min_eq_right hm.le]
    exact Nat.div_add_mod L np

/-- Witness for C7: `L = 10` split over 3 process coordinates. -/
theorem local_extents_spec_witness :
    (0 < 3 ∧ 0 ≤ 1) ∧
    (localSize 10 3 0 ≤ localSize 10 3 1 + 1 ∧
      localSize 10 3 1 ≤ localSize 10 3 0 ∧
      localOffset 10 3 2 = ∑ j in Finset.range 2, localSize 10 3 j ∧
      (∑ j in Finset.range 3, localSize 10 3 j) = 10 ∧
      localSize 10 3 0 = 4 ∧ localSize 10 3 1 = 3 ∧ localSize 10 3 2 = 3) :=
  ⟨⟨by decide, by decide⟩, local_extents_spec 10 3 2 0 1 (by decide) (by decide)⟩

/-- A double-precision field of the Field Store, viewed through its
local-coordinate accessor; values are modelled as exact rationals.  The
storage-level flat indexing of such a buffer is `l2i`, proved bijective
on the padded box above. -/
abbrev Fld := Int → Int → Int → ℚ

/-- The simulation parameters of `Settings` used by the stepper. -/
structure Params where
  Du : ℚ
  Dv : ℚ
  F : ℚ
  k : ℚ
  dt : ℚ

/-- Interior test for a local coordinate: each axis in `[1, size]`, the
ghost layers being local index 0 and `size+1`. -/
def interior (g : GrayScott) (x y z : Int) : Bool :=
  decide (1 ≤ x) && decide (x ≤ (g.size_x : Int)) &&
  decide (1 ≤ y) && decide (y ≤ (g.size_y : Int)) &&
  decide (1 ≤ z) && decide (z ≤ (g.size_z : Int))

/-- Modelled from the spec: the body of `GrayScott::laplacian` is not
among the sources; per the spec it is the standard 7-point 3-D stencil,
center weight −6, each of the 6 face neighbors weight +1, grid
spacing 1. -/
def laplacian (u : Fld) (x y z : Int) : ℚ :=
  u (x - 1) y z + u (x + 1) y z + u x (y - 1) z + u x (y + 1) z +
    u x y (z - 1) + u x y (z + 1) - 6 * u x y z

/-- Modelled from the spec: the body of `GrayScott::calcU` is not among
the sources; per the spec the reaction term for U is
`-U·V² + F·(1−U)`. -/
def calcU (p : Params) (tu tv : ℚ) : ℚ :=
  -tu * tv * tv + p.F * (1 - tu)

/-- Modelled from the spec: the body of `GrayScott::calcV` is not among
the sources; per the spec the reaction term for V is
`U·V² − (F+k)·V`. -/
def calcV (p : Params) (tu tv : ℚ) : ℚ :=
  tu * tv * tv - (p.F + p.k) * tv

/-- Modelled from the spec: the body of `GrayScott::calc` is not among
the sources; per the spec one invocation writes every interior cell of
the next buffers `u2`, `v2` with
`U + dt·(Du·lap(U) + R_u)` and `V + dt·(Dv·lap(V) + R_v)`, reading only
the current buffers `u`, `v`; every other cell of the next buffers
keeps its previous contents, and the buffers are swapped only after the
full interior is computed. -/
def calcStep (g : GrayScott) (p : Params) (u v u2 v2 : Fld) : Fld × Fld :=
  (fun x y z =>
      if interior g x y z then
        u x y z + p.dt * (p.Du * laplacian u x y z + calcU p (u x y z) (v x y z))
      else u2 x y z,
    fun x y z =>
      if interior g x y z then
        v x y z + p.dt * (p.Dv * laplacian v x y z + calcV p (u x y z) (v x y z))
      else v2 x y z)

/-- C4: at every interior cell one stepper invocation produces
`U' = U + dt·(Du·lap(U) + (-U·V² + F·(1−U)))` and
`V' = V + dt·(Dv·lap(V) + (U·V² − (F+k)·V))`, reading the current
buffers; with uniform input U=1, V=0 the interior stays at U=1, V=0. -/
theorem calc_step_formula (g : GrayScott) (p : Params) (u v u2 v2 : Fld)
    (x y z : Int) (h : interior g x y z = true) :
    (calcStep g p u v u2 v2).1 x y z
      = u x y z + p.dt * (p.Du * laplacian u x y z
          + (-(u x y z) * v x y z * v x y z + p.F * (1 - u x y z))) ∧
    (calcStep g p u v u2 v2).2 x y z
      = v x y z + p.dt * (p.Dv * laplacian v x y z
          + (u x y z * v x y z * v x y z - (p.F + p.k) * v x y z)) ∧
    (calcStep g p (fun _ _ _ => 1) (fun _ _ _ => 0) u2 v2).1 x y z = 1 ∧
    (calcStep g p (fun _ _ _ => 1) (fun _ _ _ => 0) u2 v2).2 x y z = 0 := by
  unfold calcStep
  simp only [h, if_true]
  refine ⟨rfl, rfl, ?_, ?_⟩
  · unfold laplacian calcU; ring
  · unfold laplacian calcV; ring

/-- Witness for C4: the interior cell (1,1,1) of the rank `gw`, with
all parameters 1 and current buffers U=2, V=3 everywhere. -/
theorem calc_step_formula_witness :
    interior gw 1 1 1 = true ∧
    ((calcStep gw ⟨1, 1, 1, 1, 1⟩ (fun _ _ _ => 2) (fun _ _ _ => 3)
        (fun _ _ _ => 5) (fun _ _ _ => 7)).1 1 1 1
      = 2 + (1 : ℚ) * ((1 : ℚ) * laplacian (fun _ _ _ => 2) 1 1 1
          + (-(2 : ℚ) * 3 * 3 + (1 : ℚ) * (1 - 2))) ∧
    (calcStep gw ⟨1, 1, 1, 1, 1⟩ (fun _ _ _ => 2) (fun _ _ _ => 3)
        (fun _ _ _ => 5) (fun _ _ _ => 7)).2 1 1 1
      = 3 + (1 : ℚ) * ((1 : ℚ) * laplacian (fun _ _ _ => 3) 1 1 1
          + ((2 : ℚ) * 3 * 3 - ((1 : ℚ) + 1) * 3)) ∧
    (calcStep gw ⟨1, 1, 1, 1, 1⟩ (fun _ _ _ => 1) (fun _ _ _ => 0)
        (fun _ _ _ => 5) (fun _ _ _ => 7)).1 1 1 1 = 1 ∧
    (calcStep gw ⟨1, 1, 1, 1, 1⟩ (fun _ _ _ => 1) (fun _ _ _ => 0)
        (fun _ _ _ => 5) (fun _ _ _ => 7)).2 1 1 1 = 0) :=
  ⟨by decide, calc_step_formula gw ⟨1, 1, 1, 1, 1⟩ (fun _ _ _ => 2)
    (fun _ _ _ => 3) (fun _ _ _ => 5) (fun _ _ _ => 7) 1 1 1 (by decide)⟩

/-- C6: one stepper invocation leaves every ghost (non-interior) cell of
the next buffers unchanged, and at interior cells the result is
independent of the previous contents of the next buffers — all reads
come from the current buffers. -/
theorem calc_step_frame (g : GrayScott) (p : Params) (u v u2 v2 u2' v2' : Fld)
    (x y z : Int) :
    (interior g x y z = false →
      (calcStep g p u v u2 v2).1 x y z = u2 x y z ∧
      (calcStep g p u v u2 v2).2 x y z = v2 x y z) ∧
    (interior g x y z = true →
      (calcStep g p u v u2 v2).1 x y z = (calcStep g p u v u2' v2').1 x y z ∧
      (calcStep g p u v u2 v2).2 x y z = (calcStep g p u v u2' v2').2 x y z) := by
  constructor <;> intro h <;> unfold calcStep <;> simp [h]

/-- Witness for C6: ghost cell (0,0,0) and interior cell (1,1,1) of the
rank `gw`. -/
theorem calc_step_frame_witness :
    (interior gw 0 0 0 = false ∧
      ((calcStep gw ⟨1, 1, 1, 1, 1⟩ (fun _ _ _ => 2) (fun _ _ _ => 3)
          (fun _ _ _ => 5) (fun _ _ _ => 7)).1 0 0 0 = (5 : ℚ) ∧
        (calcStep gw ⟨1, 1, 1, 1, 1⟩ (fun _ _ _ => 2) (fun _ _ _ => 3)
          (fun _ _ _ => 5) (fun _ _ _ => 7)).2 0 0 0 = (7 : ℚ))) ∧
    (interior gw 1 1 1 = true ∧
      ((calcStep gw ⟨1, 1, 1, 1, 1⟩ (fun _ _ _ => 2) (fun _ _ _ => 3)
          (fun _ _ _ => 5) (fun _ _ _ => 7)).1 1 1 1
        = (calcStep gw ⟨1, 1, 1, 1, 1⟩ (fun _ _ _ => 2) (fun _ _ _ => 3)
          (fun _ _ _ => 11) (fun _ _ _ => 13)).1 1 1 1 ∧
        (calcStep gw ⟨1, 1, 1, 1, 1⟩ (fun _ _ _ => 2) (fun _ _ _ => 3)
          (fun _ _ _ => 5) (fun _ _ _ => 7)).2 1 1 1
        = (calcStep gw ⟨1, 1, 1, 1, 1⟩ (fun _ _ _ => 2) (fun _ _ _ => 3)
          (fun _ _ _ => 11) (fun _ _ _ => 13)).2 1 1 1)) := by
  constructor
  · exact ⟨by decide,
      (calc_step_frame gw ⟨1, 1, 1, 1, 1⟩ (fun _ _ _ => 2) (fun _ _ _ => 3)
        (fun _ _ _ => 5) (fun _ _ _ => 7) (fun _ _ _ => 11) (fun _ _ _ => 13)
        0 0 0).1 (by decide)⟩
  · exact ⟨by decide,
      (calc_step_frame gw ⟨1, 1, 1, 1, 1⟩ (fun _ _ _ => 2) (fun _ _ _ => 3)
        (fun _ _ _ => 5) (fun _ _ _ => 7) (fun _ _ _ => 11) (fun _ _ _ => 13)
        1 1 1).2 (by decide)⟩

/-- Modelled from the spec: the bodies of `GrayScott::restart` and
`GrayScott::data_noghost` are not among the sources.  `checkpoint`
strips the ghost layer and hands the rank's interior to the persistence
collaborator keyed by its global offset selection, so the persisted
value at a global coordinate of this rank's region is the local cell at
`global − offset + 1` per axis. -/
def checkpointAt (g : GrayScott) (u : Fld) (gx gy gz : Int) : ℚ :=
  u (gx - (g.offset_x : Int) + 1) (gy - (g.offset_y : Int) + 1)
    (gz - (g.offset_z : Int) + 1)

/-- Modelled from the spec: the consistent global snapshot assembled by
the persistence collaborator from all writer ranks' ghost-stripped
selections — a global cell carries the value written by a rank whose
interior region contains it. -/
def snapshot (ws : List (GrayScott × Fld)) (gx gy gz : Int) : ℚ :=
  match ws with
  | [] => 0
  | (g, u) :: rest =>
    if g.is_inside gx gy gz then checkpointAt g u gx gy gz
    else snapshot rest gx gy gz

/-- Modelled from the spec: `restore` reads this rank's selection back
into a ghost-padded buffer; interior cells receive the persisted global
values, ghost layers are left zero until the next halo exchange. -/
def restore (g : GrayScott) (G : Int → Int → Int → ℚ) : Fld :=
  fun x y z =>
    if interior g x y z then
      G ((g.offset_x : Int) + x - 1) ((g.offset_y : Int) + y - 1)
        ((g.offset_z : Int) + z - 1)
    else 0

/-- Two ranks' interior regions share no global cell. -/
def disjointRegions (a b : GrayScott) : Prop :=
  ∀ gx gy gz : Int,
    ¬(a.is_inside gx gy gz = true ∧ b.is_inside gx gy gz = true)

lemma snapshot_eq_of_mem (ws : List (GrayScott × Fld)) (w : GrayScott)
    (u : Fld) (gx gy gz : Int)
    (hdisj : ws.Pairwise (fun a b => disjointRegions a.1 b.1))
    (hmem : (w, u) ∈ ws) (hin : w.is_inside gx gy gz = true) :
    snapshot ws gx gy gz = checkpointAt w u gx gy gz := by
  induction ws with
  | nil => cases hmem
  | cons hd tl ih =>
    rw [List.pairwise_cons] at hdisj
    obtain ⟨hhd, htl⟩ := hdisj
    obtain ⟨a, b⟩ := hd
    rcases List.mem_cons.mp hmem with heq | hmemtl
    · rw [show w = a from (Prod.mk.injEq _ _ _ _ ▸ heq.symm).1.symm] at hin ⊢
      rw [show u = b from (Prod.mk.injEq _ _ _ _ ▸ heq.symm).2.symm]
      simp [snapshot, hin]
    · have hnot : a.is_inside gx gy gz = false := by
        rcases Bool.eq_false_or_eq_true (a.is_inside gx gy gz) with ht | hf
        · exact absurd ⟨ht, hin⟩ (hhd (w, u) hmemtl gx gy gz)
        · exact hf
      simp only [snapshot, hnot, Bool.false_eq_true, if_false]
      exact ih htl hmemtl

/-- C5: checkpoint followed by restore is a round trip on the interior.
For writer ranks with pairwise disjoint interior regions, each holding a
local field, and any reader rank (of the same or a different
decomposition of the same global shape): every interior cell of the
reader whose global coordinate lies in writer `w`'s region reads back
exactly `w`'s pre-checkpoint local value at that global coordinate —
bit-for-bit, ghost cells being excluded from the round trip. -/
theorem restart_roundtrip (ws : List (GrayScott × Fld)) (w : GrayScott)
    (u : Fld) (r : GrayScott) (x y z : Int)
    (hdisj : ws.Pairwise (fun a b => disjointRegions a.1 b.1))
    (hmem : (w, u) ∈ ws)
    (hint : interior r x y z = true)
    (hin : w.is_inside ((r.offset_x : Int) + x - 1) ((r.offset_y : Int) + y - 1)
        ((r.offset_z : Int) + z - 1) = true) :
    restore r (snapshot ws) x y z
      = u (((r.offset_x : Int) + x - 1) - (w.offset_x : Int) + 1)
          (((r.offset_y : Int) + y - 1) - (w.offset_y : Int) + 1)
          (((r.offset_z : Int) + z - 1) - (w.offset_z : Int) + 1) := by
  unfold restore
  rw [if_pos (by simp [hint])]
  rw [snapshot_eq_of_mem ws w u _ _ _ hdisj hmem hin]
  rfl

/-- Writer rank 0 of the witness decomposition: cell block at the
origin. -/
def w0 : GrayScott :=
  { size_x := 1, size_y := 1, size_z := 1,
    offset_x := 0, offset_y := 0, offset_z := 0 }

/-- Writer rank 1 of the witness decomposition: the adjacent block along
the x axis. -/
def w1 : GrayScott :=
  { size_x := 1, size_y := 1, size_z := 1,
    offset_x := 1, offset_y := 0, offset_z := 0 }

/-- The two writers' checkpointed fields: U=2 on `w0`, U=3 on `w1`. -/
def wlist : List (GrayScott × Fld) :=
  [(w0, fun _ _ _ => 2), (w1, fun _ _ _ => 3)]

/-- Witness for C5: a 2×1×1 checkpoint read back by reader rank `w1`;
its interior cell (1,1,1) sits at global (1,0,0), owned by writer `w1`,
and reads back that writer's value 3. -/
theorem restart_roundtrip_witness :
    wlist.Pairwise (fun a b => disjointRegions a.1 b.1) ∧
    ((w1, fun _ _ _ => (3 : ℚ)) : GrayScott × Fld) ∈ wlist ∧
    interior w1 1 1 1 = true ∧
    w1.is_inside ((w1.offset_x : Int) + 1 - 1) ((w1.offset_y : Int) + 1 - 1)
      ((w1.offset_z : Int) + 1 - 1) = true ∧
    restore w1 (snapshot wlist) 1 1 1
      = (fun _ _ _ => (3 : ℚ)) (((w1.offset_x : Int) + 1 - 1) - (w1.offset_x : Int) + 1)
          (((w1.offset_y : Int) + 1 - 1) - (w1.offset_y : Int) + 1)
          (((w1.offset_z : Int) + 1 - 1) - (w1.offset_z : Int) + 1) := by
  have hdisj : wlist.Pairwise (fun a b => disjointRegions a.1 b.1) := by
    unfold wlist
    refine List.Pairwise.cons ?_ (List.Pairwise.cons (by simp) List.Pairwise.nil)
    intro p hp
    rw [List.mem_singleton] at hp
    rw [hp]
    intro gx gy gz hcontra
    obtain ⟨h1, h2⟩ := hcontra
    rw [is_inside_iff] at h1 h2
    unfold w0 at h1
    unfold w1 at h2
    simp at h1 h2
    omega
  have hmem : ((w1, fun _ _ _ => (3 : ℚ)) : GrayScott × Fld) ∈ wlist := by
    unfold wlist; simp
  refine ⟨hdisj, hmem, by decide, by decide, ?_⟩
  exact restart_roundtrip wlist w1 (fun _ _ _ => 3) w1 1 1 1 hdisj hmem
    (by decide) (by decide)

/-- Status reported by the persistence collaborator's `begin_step`
(the reader loop of `BPRead` runs while it returns `OK`). -/
inductive StepStatus where
  | OK : StepStatus
  | StepUnavailable : StepStatus
deriving DecidableEq, Repr

/-- The persisted sequence of a file: the list of step indices written
so far, in increasing order. -/
structure BPFile where
  steps : List Nat
deriving DecidableEq, Repr

/-- One writer bracket `begin_step`/`end_step`: persists the next step
of the sequence. -/
def endStepWrite (f : BPFile) : BPFile :=
  ⟨f.steps ++ [f.steps.length]⟩

/-- Modelled from the spec: the write loop of `BPWrite` performs exactly
`nSteps` begin/end step brackets, each persisting one step of the
monotonically increasing sequence (the ADIOS2 engine behind
`bpWriter.BeginStep`/`EndStep` is the external persistence
collaborator). -/
def bpWrite : Nat → BPFile
  | 0 => ⟨[]⟩
  | n + 1 => endStepWrite (bpWrite n)

/-- Modelled from the spec: a reader's `begin_step` with cursor `c`
(number of steps already consumed) succeeds while further persisted
steps exist and otherwise reports that none do, which terminates the
`BPRead` loop. -/
def beginStepRead (f : BPFile) (c : Nat) : StepStatus :=
  if c < f.steps.length then StepStatus.OK else StepStatus.StepUnavailable

lemma bpWrite_length (n : Nat) : (bpWrite n).steps.length = n := by
  induction n with
  | zero => rfl
  | succ n ihn => simp [bpWrite, endStepWrite, ihn]

/-- C8: reading past the last persisted step fails.  For a sequence
written with exactly `nSteps` begin/end brackets, the reader's
`begin_step` succeeds precisely at cursors below `nSteps` — so exactly
`nSteps` of the first `nSteps+1` attempts succeed — and the
`(nSteps+1)`-th attempt reports that no further steps exist. -/
theorem read_past_end (nSteps : Nat) :
    (∀ c : Nat, beginStepRead (bpWrite nSteps) c = StepStatus.OK ↔ c < nSteps) ∧
    ((Finset.range (nSteps + 1)).filter
      (fun c => beginStepRead (bpWrite nSteps) c = StepStatus.OK)).card = nSteps ∧
    beginStepRead (bpWrite nSteps) nSteps = StepStatus.StepUnavailable := by
  have hOK : ∀ c : Nat, beginStepRead (bpWrite nSteps) c = StepStatus.OK ↔ c < nSteps := by
    intro c
    unfold beginStepRead
    rw [bpWrite_length]
    split_ifs with h <;> simp [h]
  refine ⟨hOK, ?_, ?_⟩
  · have hfe : (Finset.range (nSteps + 1)).filter
        (fun c => beginStepRead (bpWrite nSteps) c = StepStatus.OK)
        = Finset.range nSteps := by
      ext c
      simp only [Finset.mem_filter, Finset.mem_range, hOK]
      omega
    rw [hfe, Finset.card_range]
  · unfold beginStepRead
    rw [bpWrite_length]
    simp

end GrayScottSpec
